import Mathlib

/-!
Verification of the Metriscope metrics explorer (src/main.py).

Strings are modelled as lists of characters (`Str`). The Python code of
`MetricsExplorer` is shallowly embedded: `fetch_metrics` becomes the pure
line-by-line parser `parseLines` (the HTTP fetch is out of scope; the parser
receives the already split lines of the response body), `group_metrics`
becomes `groupMetrics`, `search_metrics` becomes `searchMetrics`, and
`show_metric_details` becomes `detailsFor`.  The uncaught Python exception in
the HELP/TYPE branches (an `IndexError` from `line[7:].split(' ', 1)[1]` when
the payload has no space) is modelled by `Option`: `parseLines` returns `none`
exactly when the Python code would abort with an uncaught exception.

Numeric values are modelled exactly: Python's `float(...)` call is embedded as
`pyFloat`, which accepts the sign/digits/fraction/exponent grammar together
with the special tokens inf/infinity/nan (case-insensitively) and surrounding
whitespace, producing an exact rational for finite literals.  The model covers
the ASCII fragment of Python's grammar (Unicode digits and underscore
separators are not modelled; no claim depends on them).
-/

namespace Metriscope

/-- Characters of one line (Python strings are modelled as `List Char`). -/
abbrev Str := List Char

/-- Whitespace characters stripped by Python's `str.strip()` / `float()`
(ASCII fragment). -/
def pyIsSpace (c : Char) : Bool :=
  c == ' ' || c == '\t' || c == '\n' || c == '\r' || c == '\x0b' || c == '\x0c'

/-- Python `s.startswith(pre)`. -/
def strStarts : Str → Str → Bool
  | [], _ => true
  | _ :: _, [] => false
  | c :: cs, d :: ds => if c = d then strStarts cs ds else false

/-- Python `s.split(sep, 1)` when a separator occurrence exists: the part
before the first `sep` and the part after it; `none` when `sep` is absent
(in which case Python's one-element result makes a `[1]` index raise). -/
def splitOnce (sep : Char) : Str → Option (Str × Str)
  | [] => none
  | c :: cs =>
    if c = sep then some ([], cs)
    else (splitOnce sep cs).map (fun pr => (c :: pr.1, pr.2))

/-- Python `s.split(sep)` for a one-character separator: splits at every
occurrence, keeping empty parts. -/
def splitAll (sep : Char) : Str → List Str
  | [] => [[]]
  | c :: cs =>
    let r := splitAll sep cs
    if c = sep then [] :: r
    else
      match r with
      | h :: t => (c :: h) :: t
      | [] => [[c]]

/-- Index of the first occurrence of `c` (Python `s.index(c)`, `none` for the
`ValueError` case). -/
def charIdx (c : Char) : Str → Option Nat
  | [] => none
  | x :: xs => if x = c then some 0 else (charIdx c xs).map (· + 1)

/-- Index of the last occurrence of `c` (Python `s.rindex(c)`, `none` for the
`ValueError` case). -/
def charRIdx (c : Char) (s : Str) : Option Nat :=
  match charIdx c s.reverse with
  | none => none
  | some k => some (s.length - 1 - k)

/-- Character class of the regex `\w` (ASCII fragment). -/
def isWordChar (c : Char) : Bool := c.isAlphanum || c == '_'

/-- Negation of the character class `["]` used for label values. -/
def notQuote (c : Char) : Bool := !(c == '"')

/-- Match of the regex `(\w+)="([^"]*)"` anchored at the start of `s`:
returns the key, the value and the remainder after the closing quote. -/
def matchPairAt (s : Str) : Option (Str × Str × Str) :=
  if s.takeWhile isWordChar = [] then none
  else
    match s.dropWhile isWordChar with
    | '=' :: '"' :: r2 =>
      match r2.dropWhile notQuote with
      | '"' :: r4 => some (s.takeWhile isWordChar, r2.takeWhile notQuote, r4)
      | _ => none
    | _ => none

/-- Structural worker for the regex scan, with a fuel argument bounding the
number of scanning steps.  Each step consumes at least one character of the
string (a successful match consumes the whole `key="value"` pair, which is at
least four characters, and a failed attempt consumes one character), so
starting the fuel at the string length never truncates the scan. -/
def findAllPairsF : Nat → Str → List (Str × Str)
  | 0, _ => []
  | fuel + 1, s =>
    match matchPairAt s with
    | some kvr => (kvr.1, kvr.2.1) :: findAllPairsF fuel kvr.2.2
    | none =>
      match s with
      | [] => []
      | _ :: cs => findAllPairsF fuel cs

/-- All matches of `re.findall(r'(\w+)="([^"]*)"', s)`: scan left to right,
non-overlapping, advancing one character after a failed match attempt. -/
def findAllPairs (s : Str) : List (Str × Str) := findAllPairsF s.length s

/-- Python dict assignment `m[k] = v` on an insertion-ordered dictionary:
overwrite in place when the key exists, append otherwise. -/
def dictSet (m : List (Str × Str)) (k v : Str) : List (Str × Str) :=
  match m with
  | [] => [(k, v)]
  | p :: r => if p.1 = k then (k, v) :: r else p :: dictSet r k v

/-- Label dictionary built from the regex matches by successive assignment
(`labels[key] = value` in source order, so a duplicated key keeps the last
value). -/
def buildLabels (ps : List (Str × Str)) : List (Str × Str) :=
  ps.foldl (fun m p => dictSet m p.1 p.2) []

/-- Python `str.strip()` (ASCII whitespace fragment). -/
def pyStrip (s : Str) : Str :=
  ((s.dropWhile pyIsSpace).reverse.dropWhile pyIsSpace).reverse

/-- Python `str.lower()` (ASCII fragment). -/
def lowerStr (s : Str) : Str := s.map Char.toLower

/-- Value of a string of decimal digits. -/
def digitsVal (ds : Str) : ℕ := ds.foldl (fun a c => a * 10 + (c.toNat - 48)) 0

/-- Result of Python's `float(...)`: an exact rational for finite literals,
or one of the special values. -/
inductive FloatVal
  | num (q : ℚ)
  | inf (neg : Bool)
  | nan
deriving DecidableEq

/-- Mantissa part of a float literal: digits with an optional fraction,
requiring at least one digit; returns the combined digits' integer value,
the length of the fractional part and the remainder (the represented value
is the integer divided by ten to the fractional length). -/
def parseMantissa (s : Str) : Option (ℕ × ℕ × Str) :=
  let ip := s.takeWhile Char.isDigit
  let r1 := s.dropWhile Char.isDigit
  match r1 with
  | '.' :: r2 =>
    let fp := r2.takeWhile Char.isDigit
    let r3 := r2.dropWhile Char.isDigit
    if ip = [] ∧ fp = [] then none
    else some (digitsVal (ip ++ fp), fp.length, r3)
  | _ => if ip = [] then none else some (digitsVal ip, 0, r1)

/-- Exponent part of a float literal: empty, or `e`/`E`, an optional sign and
a nonempty digit run consuming the whole remainder. -/
def parseExpPart (s : Str) : Option Int :=
  match s with
  | [] => some 0
  | e :: r1 =>
    if e = 'e' ∨ e = 'E' then
      let sr : Int × Str :=
        match r1 with
        | '+' :: t => (1, t)
        | '-' :: t => (-1, t)
        | t => (1, t)
      let ds := sr.2.takeWhile Char.isDigit
      let r3 := sr.2.dropWhile Char.isDigit
      if ds = [] ∨ r3 ≠ [] then none
      else some (sr.1 * (digitsVal ds : Int))
    else none

/-- Python `float(s)`: strip whitespace, take an optional sign, accept the
special tokens or a decimal literal with optional exponent. -/
def pyFloat (s0 : Str) : Option FloatVal :=
  let s1 := pyStrip s0
  let nb : Bool × Str :=
    match s1 with
    | '+' :: t => (false, t)
    | '-' :: t => (true, t)
    | t => (false, t)
  let lb := lowerStr nb.2
  if lb = [ 'i', 'n', 'f'] ∨ lb = [ 'i', 'n', 'f', 'i', 'n', 'i', 't', 'y'] then
    some (FloatVal.inf nb.1)
  else if lb = [ 'n', 'a', 'n'] then some FloatVal.nan
  else
    match parseMantissa nb.2 with
    | none => none
    | some mfr =>
      match parseExpPart mfr.2.2 with
      | none => none
      | some e =>
        let sgn : Int := if nb.1 then -1 else 1
        if 0 ≤ e then
          some (FloatVal.num (mkRat (sgn * mfr.1 * 10 ^ e.toNat) (10 ^ mfr.2.1)))
        else
          some (FloatVal.num (mkRat (sgn * mfr.1) (10 ^ mfr.2.1 * 10 ^ (-e).toNat)))

/-- One parsed metric sample: the tuple `(metric_name, value, labels,
current_help)` appended to `metrics` in `fetch_metrics`. -/
structure Sample where
  name : Str
  value : FloatVal
  labels : List (Str × Str)
  help : Str
deriving DecidableEq

/-- One entry of `help_cache`: the dictionary `{'help': ..., 'type': ...}`. -/
structure MetaEntry where
  help : Str
  type : Str
deriving DecidableEq

/-- Lookup in an insertion-ordered association list keyed by strings,
modelling Python dict lookup (keys are unique in all dicts the code builds,
and lookup returns the first match). -/
def alookup {β : Type} (k : Str) : List (Str × β) → Option β
  | [] => none
  | p :: r => if p.1 = k then some p.2 else alookup k r

/-- Membership test in a list of strings (models Python `in` on a set or
list of names). -/
def elemStr (x : Str) : List Str → Bool
  | [] => false
  | y :: r => if y = x then true else elemStr x r

/-- Python `if metric_name not in self.help_cache: self.help_cache[...] = v`:
insert at the end only when the key is absent. -/
def insertIfAbsent (m : List (Str × MetaEntry)) (k : Str) (v : MetaEntry) :
    List (Str × MetaEntry) :=
  match alookup k m with
  | some _ => m
  | none => m ++ [(k, v)]

/-- Name and label part of a sample line (`fetch_metrics` lines 36-45):
when `'{'` occurs, the name is the text before its first occurrence and the
labels come from the slice between the first `'{'` and the last `'}'`;
`none` models the uncaught-in-this-scope `ValueError` of `rindex` (caught by
the surrounding `except`). -/
def decodeNameLabels (p : Str) : Option (Str × List (Str × Str)) :=
  match charIdx '{' p with
  | none => some (p, [])
  | some i =>
    match charRIdx '}' p with
    | none => none
    | some j =>
      some (p.take i, buildLabels (findAllPairs ((p.take j).drop (i + 1))))

/-- Decoder for one sample line (`fetch_metrics` lines 32-47): split on
space into exactly two tokens, decode name and labels, parse the value;
`none` models any exception swallowed by the `except` clause. -/
def decodeSample (line : Str) : Option (Str × FloatVal × List (Str × Str)) :=
  match splitAll ' ' line with
  | [namePart, valueStr] =>
    match decodeNameLabels namePart with
    | none => none
    | some nl =>
      match pyFloat valueStr with
      | none => none
      | some v => some (nl.1, v, nl.2)
  | _ => none

/-- Parser state carried across lines of `fetch_metrics`: the running
`current_help`/`current_type` context, the accumulated sample list and the
`help_cache` metadata table. -/
structure PState where
  curHelp : Str
  curType : Str
  samples : List Sample
  meta : List (Str × MetaEntry)
deriving DecidableEq

/-- Marker of a HELP line (`'# HELP '`). -/
def helpMarker : Str := [ '#', ' ', 'H', 'E', 'L', 'P', ' ']

/-- Marker of a TYPE line (`'# TYPE '`). -/
def typeMarker : Str := [ '#', ' ', 'T', 'Y', 'P', 'E', ' ']

/-- Marker of a comment line (`'#'`). -/
def hashMark : Str := [ '#']

/-- Processing of one line of `fetch_metrics` (lines 26-56): HELP and TYPE
lines update the running context (aborting with an uncaught `IndexError`,
modelled as `none`, when the payload has no space); other non-comment
non-blank lines are decoded as samples, appending the sample and inserting
first-seen metadata on success and being silently skipped on failure. -/
def stepLine (st : PState) (line : Str) : Option PState :=
  if strStarts helpMarker line then
    match splitOnce ' ' (line.drop 7) with
    | some pr => some { st with curHelp := pr.2 }
    | none => none
  else if strStarts typeMarker line then
    match splitOnce ' ' (line.drop 7) with
    | some pr => some { st with curType := pr.2 }
    | none => none
  else if !(strStarts hashMark line) && line.any (fun c => !(pyIsSpace c)) then
    match decodeSample line with
    | some nvl =>
      some { st with
        samples := st.samples ++
          [{ name := nvl.1, value := nvl.2.1, labels := nvl.2.2, help := st.curHelp }],
        meta := insertIfAbsent st.meta nvl.1 { help := st.curHelp, type := st.curType } }
    | none => some st
  else some st

/-- Folding of `stepLine` over the remaining lines, propagating an abort. -/
def parseLinesFrom (st : PState) : List Str → Option PState
  | [] => some st
  | l :: ls =>
    match stepLine st l with
    | some st2 => parseLinesFrom st2 ls
    | none => none

/-- Initial parser state of one `fetch_metrics` call. -/
def initState : PState := { curHelp := [], curType := [], samples := [], meta := [] }

/-- Parse of a full document given as its list of lines (the body of
`fetch_metrics` after `response.text.split('\n')`); `none` models an
uncaught exception aborting the call. -/
def parseLines (ls : List Str) : Option PState := parseLinesFrom initState ls

/-- Leading `'_'`-token of a metric name (`metric_name.split('_')[0]` in
`group_metrics`). -/
def groupKey (n : Str) : Str :=
  match splitAll '_' n with
  | t :: _ => t
  | [] => []

/-- In-place append of a name to the list stored under a group key. -/
def groupUpd : List (Str × List Str) → Str → Str → List (Str × List Str)
  | [], _, _ => []
  | p :: r, k, n => if p.1 = k then (k, p.2 ++ [n]) :: r else p :: groupUpd r k n

/-- One iteration of the `group_metrics` loop: ensure the group of the name
exists and append the name to it if not already present. -/
def groupStep (gs : List (Str × List Str)) (n : Str) : List (Str × List Str) :=
  match alookup (groupKey n) gs with
  | none => gs ++ [(groupKey n, [n])]
  | some l => if elemStr n l then gs else groupUpd gs (groupKey n) n

/-- Embedding of `group_metrics` applied to an already populated sample
list: group the metric names by their leading `'_'`-token. -/
def groupMetrics (samples : List Sample) : List (Str × List Str) :=
  samples.foldl (fun gs s => groupStep gs s.name) []

/-- Substring test (Python `needle in hay` on strings; the empty needle is
contained in everything). -/
def isSubstr : Str → Str → Bool
  | needle, [] => needle.isEmpty
  | needle, c :: t => strStarts needle (c :: t) || isSubstr needle t

/-- Condition of the `search_metrics` loop: the lowered term occurs in the
lowered name or in the lowered help text. -/
def matchesTerm (term : Str) (s : Sample) : Bool :=
  isSubstr (lowerStr term) (lowerStr s.name) || isSubstr (lowerStr term) (lowerStr s.help)

/-- One iteration of the `search_metrics` loop over `(results, seen)`. -/
def searchStep (term : Str) (acc : List (Str × Str × FloatVal) × List Str) (s : Sample) :
    List (Str × Str × FloatVal) × List Str :=
  if matchesTerm term s then
    if elemStr s.name acc.2 then acc
    else (acc.1 ++ [(s.name, s.help, s.value)], s.name :: acc.2)
  else acc

/-- Embedding of `search_metrics` applied to an already populated sample
list. -/
def searchMetrics (term : Str) (samples : List Sample) : List (Str × Str × FloatVal) :=
  (samples.foldl (searchStep term) ([], [])).1

/-- Embedding of the data computed by `show_metric_details` on a populated
index: the metadata entry of the name (absent when not cached) and the
ordered `(value, labels)` pairs of the samples carrying that name. -/
def detailsFor (samples : List Sample) (meta : List (Str × MetaEntry)) (nm : Str) :
    Option MetaEntry × List (FloatVal × List (Str × Str)) :=
  (alookup nm meta,
   (samples.filter (fun s => decide (s.name = nm))).map (fun s => (s.value, s.labels)))

/-- Outcome of one query method call (`group_metrics`, `search_metrics` or
`show_metric_details`): the produced result, the value of
`self.metrics_cache` afterwards, and whether `self.fetch_metrics()` was
invoked. -/
structure QueryOut (α : Type) where
  result : α
  newCache : Option (List Sample)
  didFetch : Bool
deriving DecidableEq

/-- Python truthiness of `self.metrics_cache` as tested by
`if not self.metrics_cache:`: `None` and the empty list are falsy. -/
def cacheTruthy : Option (List Sample) → Bool
  | none => false
  | some l => !l.isEmpty

/-- Common shape of the three query methods: populate the cache via a fetch
when it is falsy, then apply the query body to the cached sample list.
`fetched` is the sample list that a `fetch_metrics()` call would return. -/
def runQuery {α : Type} (f : List Sample → α) (cache : Option (List Sample))
    (fetched : List Sample) : QueryOut α :=
  if cacheTruthy cache then
    { result := f (cache.getD []), newCache := cache, didFetch := false }
  else
    { result := f fetched, newCache := some fetched, didFetch := true }

/-- Embedding of a `group_metrics()` call including its cache handling. -/
def groupQuery : Option (List Sample) → List Sample → QueryOut (List (Str × List Str)) :=
  runQuery groupMetrics

/-- Embedding of a `search_metrics(term)` call including its cache handling. -/
def searchQuery (term : Str) :
    Option (List Sample) → List Sample → QueryOut (List (Str × Str × FloatVal)) :=
  runQuery (searchMetrics term)

/-- Embedding of a `show_metric_details(nm)` call including its cache
handling. -/
def detailsQuery (meta : List (Str × MetaEntry)) (nm : Str) :
    Option (List Sample) → List Sample →
    QueryOut (Option MetaEntry × List (FloatVal × List (Str × Str))) :=
  runQuery (fun ss => detailsFor ss meta nm)

/-!
Specification-side definitions.  These follow the wording of the
specification, independently of the loop structure of the code, and are
compared with the embedded code in the claim theorems.
-/

/-- Specification wording: the payload text of a HELP or TYPE line, namely
the remainder after splitting the marker-stripped line on its first space
(empty when the line is malformed and has no such space). -/
def linePayload (l : Str) : Str :=
  match splitOnce ' ' (l.drop 7) with
  | some pr => pr.2
  | none => []

/-- Specification wording: the help text of the most recent HELP line of the
document fragment, regardless of the metric name it mentions; empty when no
HELP line occurs. -/
def specLastHelp (ls : List Str) : Str :=
  ls.foldl (fun h l => if strStarts helpMarker l then linePayload l else h) []

/-- Specification wording: the type token of the most recent TYPE line of
the document fragment; empty when no TYPE line occurs. -/
def specLastType (ls : List Str) : Str :=
  ls.foldl (fun t l => if strStarts typeMarker l then linePayload l else t) []

/-- Specification wording: the sublist of samples keeping only the first
sample of each metric name (names in `seen` count as already kept). -/
def dedupByName : List Sample → List Str → List Sample
  | [], _ => []
  | s :: r, seen =>
    if elemStr s.name seen then dedupByName r seen
    else s :: dedupByName r (s.name :: seen)

/-- Specification wording of `search(term)`: keep the samples matching the
term, deduplicate by name keeping the first matching sample of each name,
and report that sample's name, help and value. -/
def specSearch (term : Str) (samples : List Sample) : List (Str × Str × FloatVal) :=
  (dedupByName (samples.filter (matchesTerm term)) []).map (fun s => (s.name, s.help, s.value))

/-- Removal of every occurrence of a string from a list of strings. -/
def removeStr (x : Str) : List Str → List Str
  | [] => []
  | y :: r => if y = x then removeStr x r else y :: removeStr x r

/-- Length bound used for the termination of `dedupStr`. -/
def removeStrLen (x : Str) (l : List Str) : (removeStr x l).length ≤ l.length := by
  induction l with
  | nil => simp [removeStr]
  | cons y r ih =>
    simp only [removeStr]
    split
    · exact Nat.le_succ_of_le ih
    · simpa using ih

/-- Specification wording: deduplication of a list of names, keeping the
first occurrence of each name in order. -/
def dedupStr : List Str → List Str
  | [] => []
  | x :: r => x :: dedupStr (removeStr x r)
termination_by l => l.length
decreasing_by
  simp only [List.length_cons]
  exact Nat.lt_succ_of_le (removeStrLen _ _)

/-- Specification wording of one group of `groupByPrefix()`: the ordered
deduplicated metric names whose leading `'_'`-token is `p`. -/
def specGroupNames (p : Str) (ns : List Str) : List Str :=
  (dedupStr ns).filter (fun n => decide (groupKey n = p))

/-- Names of a sample list, in sample order. -/
def namesOf (samples : List Sample) : List Str := samples.map (fun s => s.name)

/-- Specification wording: the value bound to a key by the textual list of
`key="value"` pairs when the last occurrence of a key wins. -/
def lookupLast (ps : List (Str × Str)) (k : Str) : Option Str := alookup k ps.reverse

/-!
Concrete data used by the witness theorems.
-/

/-- Sample named `a` with value 1, used by concrete witnesses. -/
def demoSample : Sample :=
  { name := [ 'a'], value := FloatVal.num 1, labels := [], help := [] }

/-- Line `# HELP x first` of the metadata example. -/
def exH1 : Str := (r"# HELP x first").data

/-- Line `# TYPE x counter` of the metadata example. -/
def exT1 : Str := (r"# TYPE x counter").data

/-- Line `x 1` of the metadata example. -/
def exX1 : Str := (r"x 1").data

/-- Line `# HELP x second` of the metadata example. -/
def exH2 : Str := (r"# HELP x second").data

/-- Line `x 2` of the metadata example. -/
def exX2 : Str := (r"x 2").data

/-- Full parser state produced by the metadata example document. -/
def exStFull : PState :=
  { curHelp := (r"second").data, curType := (r"counter").data,
    samples := [
      { name := [ 'x'], value := FloatVal.num 1, labels := [], help := (r"first").data },
      { name := [ 'x'], value := FloatVal.num 2, labels := [], help := (r"second").data }],
    meta := [ ([ 'x'], { help := (r"first").data, type := (r"counter").data })] }

/-- Label list `cpu="0",cpu="1"` with a duplicated key. -/
def exLabels : Str :=
  [ 'c', 'p', 'u', '=', '"', '0', '"', ',', 'c', 'p', 'u', '=', '"', '1', '"']

/-- Samples carrying the three names of the grouping example. -/
def gSamples : List Sample := [
  { name := (r"node_cpu_seconds_total").data, value := FloatVal.num 1, labels := [], help := [] },
  { name := (r"node_memory_bytes").data, value := FloatVal.num 1, labels := [], help := [] },
  { name := (r"go_gc_duration").data, value := FloatVal.num 1, labels := [], help := [] }]

/-!
Helper lemmas shared by the claim theorems.
-/

theorem strStarts_iff {pre s : Str} : strStarts pre s = true ↔ pre <+: s := by
  induction pre generalizing s with
  | nil => simp [strStarts]
  | cons c cs ih =>
    cases s with
    | nil => simp [strStarts]
    | cons d ds =>
      simp only [strStarts, List.cons_prefix_cons]
      split
      · rename_i h; subst h; simp [ih]
      · rename_i h
        simp only [Bool.false_eq_true, false_iff, not_and]
        exact fun hcd => absurd hcd h

theorem hash_of_help {l : Str} (h : strStarts helpMarker l = true) :
    strStarts hashMark l = true := by
  rw [strStarts_iff] at h ⊢
  rcases h with ⟨t, rfl⟩
  exact ⟨[ ' ', 'H', 'E', 'L', 'P', ' '] ++ t, by simp [helpMarker, hashMark]⟩

theorem hash_of_type {l : Str} (h : strStarts typeMarker l = true) :
    strStarts hashMark l = true := by
  rw [strStarts_iff] at h ⊢
  rcases h with ⟨t, rfl⟩
  exact ⟨[ ' ', 'T', 'Y', 'P', 'E', ' '] ++ t, by simp [typeMarker, hashMark]⟩

theorem elemStr_iff {x : Str} {l : List Str} : elemStr x l = true ↔ x ∈ l := by
  induction l with
  | nil => simp [elemStr]
  | cons y r ih =>
    by_cases h : y = x
    · subst h; simp [elemStr]
    · simp only [elemStr, if_neg h, ih, List.mem_cons, iff_or_self]
      exact fun hxy => absurd hxy.symm h

theorem alookup_append {β : Type} (k : Str) (a b : List (Str × β)) :
    alookup k (a ++ b) =
      match alookup k a with
      | some v => some v
      | none => alookup k b := by
  induction a with
  | nil => simp [alookup]
  | cons p r ih =>
    simp only [List.cons_append, alookup]
    split
    · rfl
    · exact ih

theorem parseLinesFrom_append (st : PState) (xs ys : List Str) :
    parseLinesFrom st (xs ++ ys) =
      (parseLinesFrom st xs).bind (fun s2 => parseLinesFrom s2 ys) := by
  induction xs generalizing st with
  | nil => simp [parseLinesFrom]
  | cons l ls ih =>
    simp only [List.cons_append, parseLinesFrom]
    cases h : stepLine st l with
    | some st2 => simp [ih]
    | none => simp

theorem stepLine_curHelp {st st2 : PState} {l : Str} (h : stepLine st l = some st2) :
    st2.curHelp = if strStarts helpMarker l then linePayload l else st.curHelp := by
  unfold stepLine at h
  split at h
  · rename_i hh
    unfold linePayload
    split at h
    · rename_i pr hsp
      cases h
      simp [hh, hsp]
    · cases h
  · rename_i hh
    split at h
    · split at h
      · cases h; simp [hh]
      · cases h
    · split at h
      · split at h
        · cases h; simp [hh]
        · cases h; simp [hh]
      · cases h; simp [hh]

theorem stepLine_curType {st st2 : PState} {l : Str} (h : stepLine st l = some st2) :
    st2.curType = if strStarts typeMarker l then linePayload l else st.curType := by
  unfold stepLine at h
  split at h
  · rename_i hh
    have hty : strStarts typeMarker l = false := by
      cases hc : strStarts typeMarker l
      · rfl
      · rw [strStarts_iff] at hh hc
        rcases hc with ⟨t, rfl⟩
        exact absurd (by simp [helpMarker, typeMarker, List.cons_prefix_cons] at hh) id
    split at h
    · cases h; simp [hty]
    · cases h
  · split at h
    · rename_i hty
      unfold linePayload
      split at h
      · rename_i pr hsp
        cases h
        simp [hty, hsp]
      · cases h
    · rename_i hty
      split at h
      · split at h
        · cases h; simp [hty]
        · cases h; simp [hty]
      · cases h; simp [hty]

theorem stepLine_skip {l : Str} (h1 : strStarts hashMark l = false)
    (h2 : decodeSample l = none) (st : PState) : stepLine st l = some st := by
  have hh : strStarts helpMarker l = false := by
    cases hc : strStarts helpMarker l
    · rfl
    · rw [hash_of_help hc] at h1; cases h1
  have ht : strStarts typeMarker l = false := by
    cases hc : strStarts typeMarker l
    · rfl
    · rw [hash_of_type hc] at h1; cases h1
  unfold stepLine
  rw [hh, ht, h1]
  cases hany : l.any (fun c => !(pyIsSpace c)) <;> simp [h2]

theorem parse_skip_middle {line : Str}
    (hskip : ∀ st, stepLine st line = some st) (pre post : List Str) :
    parseLines (pre ++ line :: post) = parseLines (pre ++ post) := by
  unfold parseLines
  rw [parseLinesFrom_append, parseLinesFrom_append]
  cases h : parseLinesFrom initState pre with
  | none => rfl
  | some st =>
    show parseLinesFrom st (line :: post) = parseLinesFrom st post
    simp [parseLinesFrom, hskip st]

theorem stepLine_grow {st st2 : PState} {l : Str} (h : stepLine st l = some st2) :
    (∃ d, st2.samples = st.samples ++ d) ∧ ∃ dm, st2.meta = st.meta ++ dm := by
  unfold stepLine at h
  split at h
  · split at h
    · cases h; exact ⟨⟨[], by simp⟩, [], by simp⟩
    · cases h
  · split at h
    · split at h
      · cases h; exact ⟨⟨[], by simp⟩, [], by simp⟩
      · cases h
    · split at h
      · split at h
        · rename_i nvl hdec
          cases h
          refine ⟨⟨_, rfl⟩, ?_⟩
          unfold insertIfAbsent
          split
          · exact ⟨[], by simp⟩
          · exact ⟨_, rfl⟩
        · cases h; exact ⟨⟨[], by simp⟩, [], by simp⟩
      · cases h; exact ⟨⟨[], by simp⟩, [], by simp⟩

theorem parseFrom_grow {st : PState} {ls : List Str} {st2 : PState}
    (h : parseLinesFrom st ls = some st2) :
    (∃ d, st2.samples = st.samples ++ d) ∧ ∃ dm, st2.meta = st.meta ++ dm := by
  induction ls generalizing st with
  | nil =>
    simp only [parseLinesFrom] at h
    cases h
    exact ⟨⟨[], by simp⟩, [], by simp⟩
  | cons l ls ih =>
    simp only [parseLinesFrom] at h
    cases hs : stepLine st l with
    | none => rw [hs] at h; cases h
    | some stm =>
      rw [hs] at h
      obtain ⟨⟨d1, hd1⟩, dm1, hdm1⟩ := stepLine_grow hs
      obtain ⟨⟨d2, hd2⟩, dm2, hdm2⟩ := ih h
      exact ⟨⟨d1 ++ d2, by simp [hd2, hd1]⟩, dm1 ++ dm2, by simp [hdm2, hdm1]⟩

theorem isSubstr_nil (s : Str) : isSubstr [] s = true := by
  cases s <;> simp [isSubstr, strStarts]

theorem searchFold (term : Str) (samples : List Sample)
    (res : List (Str × Str × FloatVal)) (seen : List Str) :
    (samples.foldl (searchStep term) (res, seen)).1 =
      res ++ (dedupByName (samples.filter (matchesTerm term)) seen).map
        (fun s => (s.name, s.help, s.value)) := by
  induction samples generalizing res seen with
  | nil => simp [dedupByName]
  | cons s r ih =>
    simp only [List.foldl_cons, List.filter_cons]
    cases hm : matchesTerm term s with
    | false =>
      simp only [searchStep, hm, Bool.false_eq_true, if_false, ih]
    | true =>
      simp only [searchStep, hm, if_true]
      cases hseen : elemStr s.name seen with
      | true =>
        simp only [if_true, dedupByName, hseen, ih]
      | false =>
        simp only [Bool.false_eq_true, if_false, dedupByName, hseen, ih,
          List.map_cons, List.append_assoc, List.cons_append, List.nil_append]

theorem matchesTerm_empty (s : Sample) : matchesTerm [] s = true := by
  simp [matchesTerm, lowerStr, isSubstr_nil]

theorem alookup_dictSet_self (m : List (Str × Str)) (k v : Str) :
    alookup k (dictSet m k v) = some v := by
  induction m with
  | nil => simp [dictSet, alookup]
  | cons p r ih =>
    simp only [dictSet]
    split
    · simp [alookup]
    · rename_i hp
      simp [alookup, hp, ih]

theorem alookup_dictSet_ne (m : List (Str × Str)) (k v p : Str) (hpk : p ≠ k) :
    alookup p (dictSet m k v) = alookup p m := by
  induction m with
  | nil =>
    simp only [dictSet, alookup]
    rw [if_neg (fun h => hpk h.symm)]
  | cons q r ih =>
    simp only [dictSet]
    split
    · rename_i hq
      simp only [alookup, hq]
      rw [if_neg (fun h => hpk h.symm), if_neg (fun h => hpk h.symm)]
    · simp only [alookup, ih]

theorem alookup_labelFold (ps : List (Str × Str)) : ∀ (m : List (Str × Str)) (k : Str),
    alookup k (ps.foldl (fun m p => dictSet m p.1 p.2) m) =
      match alookup k ps.reverse with
      | some v => some v
      | none => alookup k m := by
  induction ps with
  | nil => intro m k; simp [alookup]
  | cons p r ih =>
    intro m k
    simp only [List.foldl_cons, List.reverse_cons, ih, alookup_append]
    by_cases hk : p.1 = k
    · subst hk
      cases halo : alookup p.1 r.reverse with
      | some v => simp [alookup]
      | none => simp [alookup, alookup_dictSet_self]
    · cases halo : alookup k r.reverse with
      | some v => simp [alookup]
      | none => simp [alookup, hk, alookup_dictSet_ne m p.1 p.2 k (by exact fun h => hk h.symm)]

theorem alookup_buildLabels (ps : List (Str × Str)) (k : Str) :
    alookup k (buildLabels ps) = lookupLast ps k := by
  have h := alookup_labelFold ps [] k
  unfold buildLabels lookupLast
  rw [h]
  cases alookup k ps.reverse <;> simp [alookup]

theorem splitAll_no_sep {sep : Char} {y : Str} (h : sep ∉ y) :
    splitAll sep y = [y] := by
  induction y with
  | nil => rfl
  | cons c cs ih =>
    have hc : ¬(c = sep) := fun hh => h (by simp [hh])
    have hcs : sep ∉ cs := fun hh => h (by simp [hh])
    simp only [splitAll, ih hcs, if_neg hc]

theorem splitAll_mid {sep : Char} {x : Str} (h : sep ∉ x) (y : Str) :
    splitAll sep (x ++ sep :: y) = x :: splitAll sep y := by
  induction x with
  | nil => simp [splitAll]
  | cons c cs ih =>
    have hc : ¬(c = sep) := fun hh => h (by simp [hh])
    have hcs : sep ∉ cs := fun hh => h (by simp [hh])
    simp only [List.cons_append, splitAll, List.append_eq, ih hcs, if_neg hc]

theorem splitAll_two {sep : Char} {x y : Str} (hx : sep ∉ x) (hy : sep ∉ y) :
    splitAll sep (x ++ sep :: y) = [x, y] := by
  rw [splitAll_mid hx, splitAll_no_sep hy]

theorem charIdx_first {c : Char} {a : Str} (ha : c ∉ a) (t : Str) :
    charIdx c (a ++ c :: t) = some a.length := by
  induction a with
  | nil => simp [charIdx]
  | cons x xs ih =>
    have hx : ¬(x = c) := fun hh => ha (by simp [hh])
    have hxs : c ∉ xs := fun hh => ha (by simp [hh])
    simp [charIdx, hx, ih hxs]

theorem charRIdx_last {c : Char} {b : Str} (hb : c ∉ b) (u : Str) :
    charRIdx c (u ++ c :: b) = some u.length := by
  unfold charRIdx
  have hrev : (u ++ c :: b).reverse = b.reverse ++ c :: u.reverse := by
    simp
  rw [hrev, charIdx_first (by simpa using hb) u.reverse]
  simp only [List.length_append, List.length_cons, List.length_reverse, Option.some.injEq]
  omega

theorem alookup_groupUpd (gs : List (Str × List Str)) (k n : Str) (p : Str) :
    alookup p (groupUpd gs k n) =
      if p = k then (alookup k gs).map (fun l => l ++ [n]) else alookup p gs := by
  induction gs with
  | nil =>
    simp only [groupUpd, alookup, Option.map_none]
    split <;> rfl
  | cons q r ih =>
    simp only [groupUpd]
    by_cases hq : q.1 = k
    · rw [if_pos hq]
      by_cases hp : p = k
      · subst hp
        simp [alookup, hq]
      · simp only [alookup, if_neg hp]
        rw [if_neg (fun h : k = p => hp h.symm)]
        rw [if_neg (fun h : q.1 = p => hp (h.symm.trans hq))]
    · rw [if_neg hq]
      by_cases hqp : q.1 = p
      · have hp : ¬(p = k) := fun h => hq (by rw [hqp, h])
        simp [alookup, hqp, hp]
      · simp only [alookup, if_neg hqp, if_neg hq, ih]

theorem mem_removeStr {x y : Str} {l : List Str} :
    y ∈ removeStr x l ↔ y ∈ l ∧ y ≠ x := by
  induction l with
  | nil => simp [removeStr]
  | cons z r ih =>
    simp only [removeStr]
    split
    · rename_i hz
      subst hz
      rw [ih]
      simp only [List.mem_cons]
      constructor
      · rintro ⟨hy, hne⟩
        exact ⟨Or.inr hy, hne⟩
      · rintro ⟨hy, hne⟩
        rcases hy with rfl | hy
        · exact absurd rfl hne
        · exact ⟨hy, hne⟩
    · rename_i hz
      simp only [List.mem_cons, ih]
      constructor
      · rintro (rfl | ⟨hy, hne⟩)
        · exact ⟨Or.inl rfl, hz⟩
        · exact ⟨Or.inr hy, hne⟩
      · rintro ⟨hy, hne⟩
        rcases hy with rfl | hy
        · exact Or.inl rfl
        · exact Or.inr ⟨hy, hne⟩

theorem removeStr_append (x : Str) (a b : List Str) :
    removeStr x (a ++ b) = removeStr x a ++ removeStr x b := by
  induction a with
  | nil => simp [removeStr]
  | cons z r ih =>
    simp only [List.cons_append, removeStr]
    split
    · exact ih
    · simp [ih]

theorem mem_dedupStr_aux (x : Str) : ∀ (k : Nat) (l : List Str), l.length ≤ k →
    (x ∈ dedupStr l ↔ x ∈ l) := by
  intro k
  induction k with
  | zero =>
    intro l hl
    rw [List.length_eq_zero.mp (Nat.le_zero.mp hl)]
    simp [dedupStr]
  | succ k ih =>
    intro l hl
    cases l with
    | nil => simp [dedupStr]
    | cons y r =>
      have hr : (removeStr y r).length ≤ k :=
        le_trans (removeStrLen y r) (by simpa using hl)
      simp only [dedupStr, List.mem_cons, ih _ hr, mem_removeStr]
      by_cases hxy : x = y
      · simp [hxy]
      · simp [hxy]

theorem mem_dedupStr {x : Str} {l : List Str} : x ∈ dedupStr l ↔ x ∈ l :=
  mem_dedupStr_aux x l.length l le_rfl

theorem dedupStr_append_aux (n : Str) : ∀ (k : Nat) (l : List Str), l.length ≤ k →
    dedupStr (l ++ [n]) = if n ∈ l then dedupStr l else dedupStr l ++ [n] := by
  intro k
  induction k with
  | zero =>
    intro l hl
    rw [List.length_eq_zero.mp (Nat.le_zero.mp hl)]
    simp [dedupStr, removeStr]
  | succ k ih =>
    intro l hl
    cases l with
    | nil => simp [dedupStr, removeStr]
    | cons x r =>
      have hr : (removeStr x r).length ≤ k :=
        le_trans (removeStrLen x r) (by simpa using hl)
      by_cases hnx : n = x
      · subst hnx
        simp only [List.cons_append, dedupStr, removeStr_append]
        simp [removeStr]
      · simp only [List.cons_append, dedupStr, removeStr_append]
        have hrn : removeStr x [n] = [n] := by simp [removeStr, hnx]
        rw [hrn, ih _ hr]
        have hmem : n ∈ removeStr x r ↔ n ∈ r := by
          rw [mem_removeStr]
          exact ⟨fun h => h.1, fun h => ⟨h, hnx⟩⟩
        by_cases hn : n ∈ r
        · rw [if_pos (hmem.mpr hn), if_pos (by simp [hn])]
        · rw [if_neg (fun h => hn (hmem.mp h)),
            if_neg (by simp [hn, hnx])]

theorem dedupStr_append_single (n : Str) (l : List Str) :
    dedupStr (l ++ [n]) = if n ∈ l then dedupStr l else dedupStr l ++ [n] :=
  dedupStr_append_aux n l.length l le_rfl

theorem groupFold_lookup (samples : List Sample) : ∀ (p : Str),
    alookup p (groupMetrics samples) =
      if specGroupNames p (namesOf samples) = [] then none
      else some (specGroupNames p (namesOf samples)) := by
  induction samples using List.reverseRecOn with
  | nil =>
    intro p
    simp [groupMetrics, alookup, specGroupNames, namesOf, dedupStr]
  | append_singleton ss s ih =>
    intro p
    have hG : groupMetrics (ss ++ [s]) = groupStep (groupMetrics ss) s.name := by
      simp [groupMetrics]
    have hnames : namesOf (ss ++ [s]) = namesOf ss ++ [s.name] := by
      simp [namesOf]
    have hspec : ∀ q, specGroupNames q (namesOf ss ++ [s.name]) =
        if s.name ∈ namesOf ss then specGroupNames q (namesOf ss)
        else specGroupNames q (namesOf ss) ++
          (if groupKey s.name = q then [s.name] else []) := by
      intro q
      unfold specGroupNames
      rw [dedupStr_append_single]
      by_cases hm : s.name ∈ namesOf ss
      · rw [if_pos hm, if_pos hm]
      · rw [if_neg hm, if_neg hm, List.filter_append]
        congr 1
        by_cases hk : groupKey s.name = q
        · simp [hk]
        · simp [hk]
    rw [hG, hnames]
    unfold groupStep
    cases halo : alookup (groupKey s.name) (groupMetrics ss) with
    | none =>
      have hempty : specGroupNames (groupKey s.name) (namesOf ss) = [] := by
        by_cases h0 : specGroupNames (groupKey s.name) (namesOf ss) = []
        · exact h0
        · rw [ih (groupKey s.name), if_neg h0] at halo; cases halo
      have hnotin : s.name ∉ namesOf ss := by
        intro hmem
        have : s.name ∈ specGroupNames (groupKey s.name) (namesOf ss) := by
          unfold specGroupNames
          rw [List.mem_filter]
          exact ⟨mem_dedupStr.mpr hmem, by simp⟩
        rw [hempty] at this
        cases this
      rw [alookup_append, hspec p, if_neg hnotin]
      by_cases hpg : p = groupKey s.name
      · subst hpg
        rw [halo, hempty]
        simp [alookup]
      · have hgp : ¬(groupKey s.name = p) := fun h => hpg h.symm
        rw [ih p]
        simp only [hgp, if_false, List.append_nil]
        by_cases h0 : specGroupNames p (namesOf ss) = []
        · rw [if_pos h0]
          simp [alookup, hgp]
        · rw [if_neg h0]
    | some l =>
      dsimp only
      have hne : specGroupNames (groupKey s.name) (namesOf ss) ≠ [] := by
        intro h0
        rw [ih (groupKey s.name), if_pos h0] at halo; cases halo
      have hl : l = specGroupNames (groupKey s.name) (namesOf ss) := by
        rw [ih (groupKey s.name), if_neg hne] at halo
        exact (Option.some.inj halo).symm
      cases hmem : elemStr s.name l with
      | true =>
        have hsn : s.name ∈ namesOf ss := by
          have h1 := elemStr_iff.mp hmem
          rw [hl] at h1
          have h2 := List.mem_filter.mp h1
          exact mem_dedupStr.mp h2.1
        rw [if_pos rfl, ih p, hspec p, if_pos hsn]
      | false =>
        have hsn : s.name ∉ namesOf ss := by
          intro hmem2
          have hin : s.name ∈ l := by
            rw [hl]
            unfold specGroupNames
            rw [List.mem_filter]
            exact ⟨mem_dedupStr.mpr hmem2, by simp⟩
          rw [← elemStr_iff, hmem] at hin
          cases hin
        rw [if_neg Bool.false_ne_true]
        rw [alookup_groupUpd, hspec p, if_neg hsn]
        by_cases hpg : p = groupKey s.name
        · subst hpg
          rw [if_pos rfl, halo, ← hl, if_pos rfl]
          simp only [Option.map_some']
          rw [if_neg (by simp)]
        · have hgp : ¬(groupKey s.name = p) := fun h => hpg h.symm
          rw [if_neg hpg, ih p]
          simp only [hgp, if_false, List.append_nil]

theorem parseFrom_ctx {st0 : PState} {ls : List Str} {st1 : PState}
    (h : parseLinesFrom st0 ls = some st1) :
    st1.curHelp =
      ls.foldl (fun hh l => if strStarts helpMarker l then linePayload l else hh) st0.curHelp ∧
    st1.curType =
      ls.foldl (fun tt l => if strStarts typeMarker l then linePayload l else tt) st0.curType := by
  induction ls generalizing st0 with
  | nil =>
    simp only [parseLinesFrom, Option.some.injEq] at h
    subst h
    simp
  | cons l ls ih =>
    simp only [parseLinesFrom] at h
    cases hs : stepLine st0 l with
    | none => rw [hs] at h; cases h
    | some stm =>
      rw [hs] at h
      obtain ⟨ihh, iht⟩ := ih h
      constructor
      · rw [ihh, List.foldl_cons]
        congr 1
        exact stepLine_curHelp hs
      · rw [iht, List.foldl_cons]
        congr 1
        exact stepLine_curType hs

theorem stepLine_sample {st : PState} {l : Str} {nvl : Str × FloatVal × List (Str × Str)}
    (h1 : strStarts hashMark l = false)
    (h2 : l.any (fun c => !(pyIsSpace c)) = true)
    (hdec : decodeSample l = some nvl) :
    stepLine st l = some { st with
      samples := st.samples ++
        [{ name := nvl.1, value := nvl.2.1, labels := nvl.2.2, help := st.curHelp }],
      meta := insertIfAbsent st.meta nvl.1 { help := st.curHelp, type := st.curType } } := by
  have hh : strStarts helpMarker l = false := by
    cases hc : strStarts helpMarker l
    · rfl
    · rw [hash_of_help hc] at h1; cases h1
  have ht : strStarts typeMarker l = false := by
    cases hc : strStarts typeMarker l
    · rfl
    · rw [hash_of_type hc] at h1; cases h1
  unfold stepLine
  rw [hh, ht, h1, h2]
  simp [hdec]

theorem decodeNameLabels_block {a b : Str} (mid : Str)
    (ha : '{' ∉ a) (hb : '}' ∉ b) :
    decodeNameLabels (a ++ '{' :: (mid ++ '}' :: b)) =
      some (a, buildLabels (findAllPairs mid)) := by
  have hshape : a ++ '{' :: (mid ++ '}' :: b) = (a ++ '{' :: mid) ++ '}' :: b := by
    simp
  have hidx : charIdx '{' (a ++ '{' :: (mid ++ '}' :: b)) = some a.length :=
    charIdx_first ha _
  have hridx : charRIdx '}' (a ++ '{' :: (mid ++ '}' :: b)) =
      some (a ++ '{' :: mid).length := by
    rw [hshape]
    exact charRIdx_last hb _
  have htake1 : (a ++ '{' :: (mid ++ '}' :: b)).take a.length = a :=
    List.take_left' rfl
  have htake2 : (a ++ '{' :: (mid ++ '}' :: b)).take (a ++ '{' :: mid).length =
      a ++ '{' :: mid := by
    rw [hshape]
    exact List.take_left' rfl
  have hdrop : (a ++ '{' :: mid).drop (a.length + 1) = mid := by
    have hsh2 : a ++ '{' :: mid = (a ++ [ '{']) ++ mid := by simp
    rw [hsh2]
    exact List.drop_left' (by simp)
  unfold decodeNameLabels
  simp only [hidx, hridx, htake1, htake2, hdrop]

theorem decodeSample_block {a b vs : Str} (mid : Str)
    (ha : '{' ∉ a) (hb : '}' ∉ b)
    (hsp : ' ' ∉ a ++ '{' :: (mid ++ '}' :: b)) (hsv : ' ' ∉ vs)
    {v : FloatVal} (hv : pyFloat vs = some v) :
    decodeSample ((a ++ '{' :: (mid ++ '}' :: b)) ++ ' ' :: vs) =
      some (a, v, buildLabels (findAllPairs mid)) := by
  unfold decodeSample
  rw [splitAll_two hsp hsv]
  simp only [decodeNameLabels_block mid ha hb, hv]

/-- C3: in every successfully parsed document, a sample line decoded during
the parse yields a sample whose help field is the payload of the most recent
HELP line preceding it in document order (`specLastHelp` of the preceding
lines, regardless of which metric name that HELP line mentions), and when the
sample's name has no metadata entry yet, the final metadata for that name is
the help/type context in effect at this first sample and is never overwritten
by the later lines of the document. -/
theorem C3_help_context (pre : List Str) (line : Str) (post : List Str) (st : PState)
    (nvl : Str × FloatVal × List (Str × Str))
    (hparse : parseLines (pre ++ line :: post) = some st)
    (h1 : strStarts hashMark line = false)
    (h2 : line.any (fun c => !(pyIsSpace c)) = true)
    (hdec : decodeSample line = some nvl) :
    ∃ stPre, parseLines pre = some stPre ∧
      stPre.curHelp = specLastHelp pre ∧
      (∃ d, st.samples = stPre.samples ++
        ({ name := nvl.1, value := nvl.2.1, labels := nvl.2.2,
           help := specLastHelp pre } :: d)) ∧
      (alookup nvl.1 stPre.meta = none →
        alookup nvl.1 st.meta =
          some { help := specLastHelp pre, type := specLastType pre }) := by
  unfold parseLines at hparse
  rw [parseLinesFrom_append] at hparse
  cases hpre : parseLinesFrom initState pre with
  | none => rw [hpre] at hparse; cases hparse
  | some stPre =>
    rw [hpre, Option.some_bind] at hparse
    have hstep := @stepLine_sample stPre line nvl h1 h2 hdec
    simp only [parseLinesFrom, hstep] at hparse
    obtain ⟨hch, hct⟩ := parseFrom_ctx hpre
    have hch2 : stPre.curHelp = specLastHelp pre := hch
    have hct2 : stPre.curType = specLastType pre := hct
    obtain ⟨⟨d, hd⟩, dm, hdm⟩ := parseFrom_grow hparse
    refine ⟨stPre, hpre, hch2, ⟨d, ?_⟩, fun hnone => ?_⟩
    · rw [hd]
      simp only [hch2]
      simp
    · rw [hdm]
      simp only [insertIfAbsent, hnone]
      rw [alookup_append]
      rw [alookup_append, hnone]
      simp [alookup, hch2, hct2]

/-!
Claim theorems.
-/

/-- C1: the specification requires that a HELP or TYPE line whose payload has
no space after the metric name must not abort the parse, the remaining lines
still being decoded.  The code violates this: on the document with lines
`# HELP x` and `a 1`, `line[7:].split(' ', 1)[1]` raises an uncaught
IndexError (modelled as `none`), so the parse aborts and returns nothing,
although the second line alone decodes to one sample. -/
theorem C1_malformed_help_aborts :
    parseLines [ (r"# HELP x").data, (r"a 1").data] = none ∧
    (parseLines [ (r"a 1").data]).map (fun st => st.samples) =
      some [ { name := [ 'a'], value := FloatVal.num 1, labels := [], help := [] }] :=
  ⟨by decide, by decide⟩

/-- C2 counterexample: with `self.metrics_cache` holding the empty list (the
state after a first query whose parse yielded no samples), a later
`group_metrics` call invokes `fetch_metrics` again and replaces the cache,
because `if not self.metrics_cache:` treats the empty list as unpopulated;
this refutes the claim's assertion that the parsed result is reused with no
re-fetch also when the first parse produced an empty sample list. -/
theorem C2_empty_cache_refetches :
    (groupQuery (some []) [demoSample]).didFetch = true ∧
    (groupQuery (some []) [demoSample]).newCache = some [demoSample] :=
  ⟨by decide, by decide⟩

/-- C2 (amended): when the cached sample list is non-empty, grouping, search
and detail queries reuse it without invoking the fetch, leave the cache
unchanged, and compute their result from the cached samples; an empty cached
list is instead treated as unpopulated and triggers a new fetch. -/
theorem C2_cache_reuse (l fetched : List Sample) (h : l ≠ [])
    (term nm : Str) (meta : List (Str × MetaEntry)) :
    groupQuery (some l) fetched =
      { result := groupMetrics l, newCache := some l, didFetch := false } ∧
    searchQuery term (some l) fetched =
      { result := searchMetrics term l, newCache := some l, didFetch := false } ∧
    detailsQuery meta nm (some l) fetched =
      { result := detailsFor l meta nm, newCache := some l, didFetch := false } := by
  have htr : cacheTruthy (some l) = true := by
    cases l with
    | nil => exact absurd rfl h
    | cons x xs => rfl
  refine ⟨?_, ?_, ?_⟩ <;>
    simp [groupQuery, searchQuery, detailsQuery, runQuery, htr]

/-- C2 witness: the reuse theorem applied to a one-element cache. -/
theorem C2_cache_reuse_witness :
    groupQuery (some [demoSample]) [] =
      { result := groupMetrics [demoSample], newCache := some [demoSample],
        didFetch := false } ∧
    searchQuery [] (some [demoSample]) [] =
      { result := searchMetrics [] [demoSample], newCache := some [demoSample],
        didFetch := false } ∧
    detailsQuery [] [] (some [demoSample]) [] =
      { result := detailsFor [demoSample] [] [], newCache := some [demoSample],
        didFetch := false } :=
  C2_cache_reuse [demoSample] [] (by decide) [] [] []

/-- C3 witness: the metadata example document
`# HELP x first / # TYPE x counter / x 1 / # HELP x second / x 2`, with the
context theorem applied at both sample lines: the first sample carries help
`first` and creates the metadata entry `{help: first, type: counter}` that
survives to the end of the parse, while the second sample carries help
`second` from the running context. -/
theorem C3_help_context_witness :
    parseLines ([exH1, exT1] ++ exX1 :: [exH2, exX2]) = some exStFull ∧
    specLastHelp [exH1, exT1] = (r"first").data ∧
    specLastHelp [exH1, exT1, exX1, exH2] = (r"second").data ∧
    (∃ stPre, parseLines [exH1, exT1] = some stPre ∧
      stPre.curHelp = specLastHelp [exH1, exT1] ∧
      (∃ d, exStFull.samples = stPre.samples ++
        ({ name := [ 'x'], value := FloatVal.num 1, labels := [],
           help := specLastHelp [exH1, exT1] } :: d)) ∧
      (alookup [ 'x'] stPre.meta = none →
        alookup [ 'x'] exStFull.meta =
          some { help := specLastHelp [exH1, exT1],
                 type := specLastType [exH1, exT1] })) ∧
    (∃ stPre, parseLines [exH1, exT1, exX1, exH2] = some stPre ∧
      stPre.curHelp = specLastHelp [exH1, exT1, exX1, exH2] ∧
      (∃ d, exStFull.samples = stPre.samples ++
        ({ name := [ 'x'], value := FloatVal.num 2, labels := [],
           help := specLastHelp [exH1, exT1, exX1, exH2] } :: d)) ∧
      (alookup [ 'x'] stPre.meta = none →
        alookup [ 'x'] exStFull.meta =
          some { help := specLastHelp [exH1, exT1, exX1, exH2],
                 type := specLastType [exH1, exT1, exX1, exH2] })) := by
  refine ⟨by decide, by decide, by decide, ?_, ?_⟩
  · exact C3_help_context [exH1, exT1] exX1 [exH2, exX2] exStFull
      ([ 'x'], FloatVal.num 1, []) (by decide) (by decide) (by decide) (by decide)
  · exact C3_help_context [exH1, exT1, exX1, exH2] exX2 [] exStFull
      ([ 'x'], FloatVal.num 2, []) (by decide) (by decide) (by decide) (by decide)

/-- C4: on a populated index, search returns exactly the samples matching the
term (the lowered term occurring as a substring of the lowered name or of the
lowered help text), deduplicated by name keeping the first matching sample of
each name in sample order, reporting that first matching sample's name, help
and value. -/
theorem C4_search_spec (term : Str) (samples : List Sample) :
    searchMetrics term samples = specSearch term samples := by
  have h := searchFold term samples [] []
  simpa [searchMetrics, specSearch] using h

/-- C5: a non-comment sample line on which the decoder fails (bad split,
malformed labels or unparsable float, all modelled by `decodeSample` being
`none`) is silently discarded: the parse of the document equals the parse of
the document without that line, so no error is raised and the remaining
lines still contribute their samples. -/
theorem C5_bad_sample_skipped (line : Str) (pre post : List Str)
    (h1 : strStarts hashMark line = false)
    (h2 : decodeSample line = none) :
    parseLines (pre ++ line :: post) = parseLines (pre ++ post) :=
  parse_skip_middle (stepLine_skip h1 h2) pre post

/-- C5 witness: the line `bad_metric_no_value` next to one valid line is
dropped and the document parses to exactly one sample. -/
theorem C5_bad_sample_skipped_witness :
    parseLines [ (r"bad_metric_no_value").data, (r"up 1").data] =
      parseLines [ (r"up 1").data] ∧
    (parseLines [ (r"up 1").data]).map (fun st => st.samples.length) = some 1 := by
  constructor
  · exact C5_bad_sample_skipped (r"bad_metric_no_value").data [] [ (r"up 1").data]
      (by decide) (by decide)
  · decide

/-- C6: on a well-formed sample line whose name part carries a label block
(written as the decomposition `name ++ '{' :: raw ++ '}' :: rest` with no
`'{'` before the block and no `'}'` after it, so the block spans from the
first `'{'` to the last `'}'`), the decoder returns the name before the first
`'{'`, the value, and the mapping built from the `key="value"` pairs of the
raw label list in textual order; looking up any key in that mapping yields
the last occurrence of the key in the pair list. -/
theorem C6_label_block (a mid b vs : Str) (v : FloatVal)
    (ha : '{' ∉ a) (hb : '}' ∉ b)
    (hsp : ' ' ∉ a ++ '{' :: (mid ++ '}' :: b)) (hsv : ' ' ∉ vs)
    (hv : pyFloat vs = some v) :
    decodeSample ((a ++ '{' :: (mid ++ '}' :: b)) ++ ' ' :: vs) =
      some (a, v, buildLabels (findAllPairs mid)) ∧
    ∀ k, alookup k (buildLabels (findAllPairs mid)) = lookupLast (findAllPairs mid) k :=
  ⟨decodeSample_block mid ha hb hsp hsv hv,
   fun k => alookup_buildLabels (findAllPairs mid) k⟩

/-- C6 witness: the line `m{cpu="0",cpu="1"} 2.5` decodes with name `m`,
value 5/2 and the duplicated key `cpu` bound to its last occurrence `1`. -/
theorem C6_label_block_witness :
    decodeSample (([ 'm'] ++ '{' :: (exLabels ++ '}' :: [])) ++ ' ' :: (r"2.5").data) =
      some ([ 'm'], FloatVal.num (mkRat 5 2), buildLabels (findAllPairs exLabels)) ∧
    alookup (r"cpu").data (buildLabels (findAllPairs exLabels)) =
      lookupLast (findAllPairs exLabels) (r"cpu").data ∧
    buildLabels (findAllPairs exLabels) = [ ((r"cpu").data, [ '1'])] := by
  have h := C6_label_block [ 'm'] exLabels [] (r"2.5").data (FloatVal.num (mkRat 5 2))
    (by decide) (by decide) (by decide) (by decide) (by decide)
  exact ⟨h.1, h.2 (r"cpu").data, by decide⟩

/-- C7: grouping maps each prefix (the name's leading token when split on
`'_'`, the whole name when no underscore occurs) to the ordered deduplicated
list of metric names carrying it: looking up any prefix in the built groups
yields exactly the first-seen-ordered distinct names whose key it is, and on
the three example names the whole mapping is
`{node: [node_cpu_seconds_total, node_memory_bytes], go: [go_gc_duration]}`. -/
theorem C7_group_spec :
    (∀ (samples : List Sample) (p : Str),
      alookup p (groupMetrics samples) =
        if specGroupNames p (namesOf samples) = [] then none
        else some (specGroupNames p (namesOf samples))) ∧
    groupMetrics gSamples =
      [ ((r"node").data,
         [ (r"node_cpu_seconds_total").data, (r"node_memory_bytes").data]),
        ((r"go").data, [ (r"go_gc_duration").data])] :=
  ⟨groupFold_lookup, by decide⟩

/-- C8: the details lookup is a total function that reports the metadata as
absent when the name has no entry in the metadata table and an empty value
list when no sample carries the name; in particular it never raises on a
missing metric. -/
theorem C8_details_absent (samples : List Sample) (meta : List (Str × MetaEntry))
    (nm : Str) :
    (alookup nm meta = none → (detailsFor samples meta nm).1 = none) ∧
    ((∀ s ∈ samples, s.name ≠ nm) → (detailsFor samples meta nm).2 = []) := by
  constructor
  · intro h
    simpa [detailsFor] using h
  · intro h
    simp only [detailsFor]
    rw [List.filter_eq_nil_iff.mpr (fun s hs => by simp [h s hs])]
    rfl

/-- C8 witness: details of `missing_metric` on an index holding one sample
named `a` and no metadata: absent type/help and empty value list. -/
theorem C8_details_absent_witness :
    detailsFor [demoSample] [] (r"missing_metric").data = (none, []) := by
  have h := C8_details_absent [demoSample] [] (r"missing_metric").data
  exact Prod.ext_iff.mpr ⟨h.1 (by decide), h.2 (by decide)⟩

/-- C9 counterexample: the claim also asserts that a line whose last `'}'`
precedes the first `'{'` is skipped; it is not: the line `}a{b 1` yields a
sample named `}a` with empty labels, because the Python slice between the
indices is empty rather than an error. -/
theorem C9_braces_reversed_not_skipped :
    (parseLines [ (r"}a{b 1").data]).map (fun st => st.samples) =
      some [ { name := [ '}', 'a'], value := FloatVal.num 1, labels := [],
               help := [] }] := by
  decide

/-- C9 (amended): a non-comment sample line whose name part contains `'{'`
but no `'}'` at all is skipped without aborting the parse (the `rindex`
failure is absorbed and the remaining lines still parse); when a `'}'` exists
but the last one precedes the first `'{'`, the line is not skipped: the
decoder returns the part before the first `'{'` as the name with an empty
label mapping. -/
theorem C9_unclosed_brace_skipped :
    (∀ (np vs : Str) (i : Nat) (pre post : List Str),
      ' ' ∉ np → ' ' ∉ vs →
      strStarts hashMark (np ++ ' ' :: vs) = false →
      charIdx '{' np = some i →
      charRIdx '}' np = none →
      parseLines (pre ++ (np ++ ' ' :: vs) :: post) = parseLines (pre ++ post)) ∧
    (∀ (np : Str) (i j : Nat),
      charIdx '{' np = some i →
      charRIdx '}' np = some j →
      j ≤ i →
      decodeNameLabels np = some (np.take i, [])) := by
  constructor
  · intro np vs i pre post hnp hvs hhash hci hcj
    have hdec : decodeSample (np ++ ' ' :: vs) = none := by
      unfold decodeSample
      rw [splitAll_two hnp hvs]
      unfold decodeNameLabels
      simp only [hci, hcj]
    exact parse_skip_middle (stepLine_skip hhash hdec) pre post
  · intro np i j hci hcj hji
    unfold decodeNameLabels
    rw [hci, hcj]
    dsimp only
    have hdrop : ((np.take j).drop (i + 1)) = [] :=
      List.drop_eq_nil_of_le (le_trans (List.length_take_le j np) (by omega))
    rw [hdrop]
    rfl

/-- C9 witness: the line `x{y 1` (brace never closed) is dropped while the
following line still parses, and the name part `}a{b` (last `'}'` before the
first `'{'`) decodes to the name `}a` with empty labels. -/
theorem C9_unclosed_brace_skipped_witness :
    parseLines [ (r"x{y 1").data, (r"ok 2").data] = parseLines [ (r"ok 2").data] ∧
    decodeNameLabels (r"}a{b").data = some ([ '}', 'a'], []) := by
  constructor
  · exact C9_unclosed_brace_skipped.1 (r"x{y").data [ '1'] 1 [] [ (r"ok 2").data]
      (by decide) (by decide) (by decide) (by decide) (by decide)
  · exact C9_unclosed_brace_skipped.2 (r"}a{b").data 2 0 (by decide) (by decide)
      (by decide)

/-- C10: searching with the empty term matches every sample (the empty string
is a substring of everything), so the result lists one entry per distinct
metric name of the index in first-seen sample order, each carrying the help
text and value of that name's first sample. -/
theorem C10_empty_search (samples : List Sample) :
    searchMetrics [] samples =
      (dedupByName samples []).map (fun s => (s.name, s.help, s.value)) := by
  have h := searchFold [] samples [] []
  have hf : samples.filter (matchesTerm []) = samples :=
    List.filter_eq_self.mpr (fun s _ => matchesTerm_empty s)
  rw [hf] at h
  simpa [searchMetrics] using h

end Metriscope
